import Mathlib

/-!
Formal model of the elevator dispatch controller: the embedded (WASM)
dispatch engine from src/examples/rust-elevator-wasm/src/lib.rs and the
stream protocol codec and driver loop from src/public/rust/game.rs.

Machine integers are modelled by `Nat`/`Int` with explicit `% 2 ^ 32`
where wrap-around matters; `f32` score and load arithmetic is modelled
by exact rational arithmetic over `ℚ` (the operations involved are
`1 / (d + 1)`, doubling, multiplication by `0.3`, and order
comparisons).
-/

namespace ElevatorWasm

/-- Elevator record of the embedded ABI: `id:u32`, `current_floor:u32`,
`destination_floor:i32` (sentinel `-1` for none), a pointer+length span
of pressed floors (`u32` values, modelled as the list the span denotes)
and `load:f32` (modelled as `ℚ`). -/
structure WElevator where
  id : Nat
  current_floor : Nat
  destination_floor : Int
  pressed_floors : List Nat
  load : ℚ

/-- Floor record of the embedded ABI: `level:u32`, `up_button:u32`,
`down_button:u32` (booleans as 0/1 words). -/
structure WFloor where
  level : Nat
  up_button : Nat
  down_button : Nat

/-- The helper `fn distance(a: u32, b: u32) -> u32`. -/
def distance (a b : Nat) : Nat := if a > b then a - b else b - a

/-- The helper `fn get_destination`: a nonnegative `destination_floor`
is cast to `u32` and returned, a negative one means none. -/
def get_destination (e : WElevator) : Option Nat :=
  if e.destination_floor ≥ 0 then some e.destination_floor.toNat else none

/-- A floor has an active call when either button word is nonzero:
`floor.up_button != 0 || floor.down_button != 0`. -/
def hasCall (f : WFloor) : Bool := f.up_button != 0 || f.down_button != 0

/-- Direction-bonus test from the Priority-2 scoring loop: with a
destination present, `moving_up = dest > current_floor`, and the bonus
applies when `(moving_up && up_button != 0) || (!moving_up &&
down_button != 0)`. -/
def dirBonus (e : WElevator) (f : WFloor) : Bool :=
  match get_destination e with
  | some dest =>
      let moving_up := decide (dest > e.current_floor)
      (moving_up && f.up_button != 0) || (!moving_up && f.down_button != 0)
  | none => false

/-- Score of a call floor at scan position `floor_num`, from the body of
the Priority-2 loop of `get_best_target_floor`: base `1 / (dist + 1)`
where `dist = distance(current_floor, floor_num)` (note: the scan
position, not the floor's `level`), doubled on a direction match,
multiplied by `0.3` when `load > 0.8`. -/
def callScore (e : WElevator) (f : WFloor) (floor_num : Nat) : ℚ :=
  let dist := distance e.current_floor floor_num
  let score : ℚ := 1 / ((dist : ℚ) + 1)
  let score := if dirBonus e f then score * 2 else score
  if e.load > 4 / 5 then score * (3 / 10) else score

/-- Replacement test of the Priority-2 loop: `best_score` starts at
`f32::NEG_INFINITY`, modelled as `none`, which every (finite) score
beats; otherwise the candidate must be strictly greater. -/
def beats (score : ℚ) : Option ℚ → Bool
  | none => true
  | some b => decide (score > b)

/-- Mirror of `floors.iter().enumerate()`: the floor list paired with
0-based scan positions. -/
def enumFloors : Nat → List WFloor → List (Nat × WFloor)
  | _, [] => []
  | i, f :: rest => (i, f) :: enumFloors (i + 1) rest

/-- The Priority-2 scan over the enumerated floors, carrying
`best_floor` and `best_score` (`none` standing for negative infinity):
a floor with an active call replaces the best exactly when its score is
strictly greater. -/
def scanFloors (e : WElevator) : List (Nat × WFloor) → Nat → Option ℚ → Nat × Option ℚ
  | [], best_floor, best_score => (best_floor, best_score)
  | (idx, f) :: rest, best_floor, best_score =>
      if hasCall f then
        let score := callScore e f idx
        if beats score best_score then
          scanFloors e rest idx (some score)
        else
          scanFloors e rest best_floor best_score
      else scanFloors e rest best_floor best_score

/-- The Priority-1 loop over the pressed floors after the first: strict
`dist < best_distance` keeps the first occurrence on equal
distances. -/
def closestPressed (cur : Nat) : List Nat → Nat → Nat → Nat
  | [], best_floor, _ => best_floor
  | f :: rest, best_floor, best_distance =>
      let d := distance cur f
      if d < best_distance then closestPressed cur rest f d
      else closestPressed cur rest best_floor best_distance

/-- The idle positioning `get_strategic_position` for an effectively
empty elevator (`load < 0.1`); otherwise hold the current floor. The
`u32` operations `tick_count + id * 25` and `num_floors - 1` are
modelled with wrap-around semantics. -/
def get_strategic_position (tick_count : Nat) (e : WElevator) (num_floors : Nat) : Nat :=
  if e.load < 1 / 10 then
    let cycle_time := 100
    let phase := ((tick_count + e.id * 25) % 2 ^ 32) % cycle_time
    if phase < cycle_time / 3 then
      max (num_floors / 3) 1
    else if phase < 2 * cycle_time / 3 then
      num_floors / 2
    else
      min ((2 * num_floors) / 3) ((num_floors + (2 ^ 32 - 1)) % 2 ^ 32)
  else
    e.current_floor

/-- The per-elevator resolution `get_best_target_floor`: Priority 1
takes the closest pressed floor when any button is pressed; otherwise
Priority 2 scans the enumerated floors for calls; when no call was
scored (`best_score` still negative infinity) Priority 3 applies
strategic positioning. -/
def get_best_target_floor (tick_count : Nat) (e : WElevator) (floors : List WFloor) : Nat :=
  match e.pressed_floors with
  | p :: ps => closestPressed e.current_floor ps p (distance e.current_floor p)
  | [] =>
      let r := scanFloors e (enumFloors 0 floors) e.current_floor none
      match r.2 with
      | some _ => r.1
      | none => get_strategic_position tick_count e floors.length

/-- The command-emitting loop of the embedded `tick` entry point, from
scan position `i`: `for (elevator_id, elevator) in
elevators.iter().enumerate()`, calling the host back with
`gofloor(elevator_id, target)` exactly when the target differs from
`current_floor`. -/
def tickGo (tick_count : Nat) (floors : List WFloor) : Nat → List WElevator → List (Nat × Nat)
  | _, [] => []
  | i, e :: rest =>
      let target := get_best_target_floor tick_count e floors
      (if target ≠ e.current_floor then [(i, target)] else []) ++
        tickGo tick_count floors (i + 1) rest

/-- One embedded-ABI `tick` call: the sequence of `gofloor` callbacks it
issues, in elevator order (the trailing `tick_count` increment is the
controller's state change, not part of the emitted commands). -/
def tick (tick_count : Nat) (elevators : List WElevator) (floors : List WFloor) :
    List (Nat × Nat) :=
  tickGo tick_count floors 0 elevators

end ElevatorWasm

namespace Game

/-- Little-endian byte list of a 32-bit word, as `to_le_bytes` of a
`u32` produces it. -/
def toLE4 (n : Nat) : List Nat :=
  [n % 256, n / 256 % 256, n / 256 ^ 2 % 256, n / 256 ^ 3 % 256]

/-- A `read_exact` of 4 bytes followed by `u32::from_le_bytes`. -/
def readU32 : List Nat → Option (Nat × List Nat)
  | b0 :: b1 :: b2 :: b3 :: rest =>
      some (b0 + 256 * b1 + 256 ^ 2 * b2 + 256 ^ 3 * b3, rest)
  | _ => none

/-- Reinterpretation of a 32-bit word as `i32` (two's complement), as
`i32::from_le_bytes` does on the same bytes. -/
def asI32 (n : Nat) : Int := if n < 2 ^ 31 then (n : Int) else (n : Int) - 2 ^ 32

/-- A `read_exact` of 4 bytes followed by `i32::from_le_bytes`. -/
def readI32 (s : List Nat) : Option (Int × List Nat) :=
  match readU32 s with
  | some (n, rest) => some (asI32 n, rest)
  | none => none

/-- Little-endian bytes of an `i32` value (`to_le_bytes` after the
two's-complement reinterpretation). -/
def i32ToLE (v : Int) : List Nat := toLE4 (v % 2 ^ 32).toNat

/-- A `read_exact` of a single byte. -/
def readU8 : List Nat → Option (Nat × List Nat)
  | b :: rest => some (b, rest)
  | _ => none

/-- The `Elevator` record decoded from a state frame. The `f32`
`percent_full` field is kept as its raw little-endian 32-bit pattern;
no claim on this path inspects the float value. -/
structure Elevator where
  id : Nat
  current_floor_val : Int
  destination_floor_val : Option Int
  percent_full_bits : Nat
  pressed_buttons : List Int

/-- The `Floor` record decoded from a state frame. -/
structure Floor where
  level_val : Int
  up : Bool
  down : Bool

/-- Destination parse of `read_state`:
`if dest_raw == -1 { None } else { Some(dest_raw) }`. -/
def decodeDest (dest_raw : Int) : Option Int :=
  if dest_raw = -1 then none else some dest_raw

/-- The pressed-button loop of `read_state`: `button_count` consecutive
`i32` reads. -/
def readPressed : Nat → List Nat → Option (List Int × List Nat)
  | 0, s => some ([], s)
  | n + 1, s => do
      let (v, s) ← readI32 s
      let (vs, s) ← readPressed n s
      pure (v :: vs, s)

/-- Decode of one elevator record at 0-based arrival position `id`:
`current_floor:i32, destination:i32, percent_full:f32,
button_count:u32, buttons:[i32; button_count]`. -/
def readElevator (id : Nat) (s : List Nat) : Option (Elevator × List Nat) := do
  let (current_floor, s) ← readI32 s
  let (dest_raw, s) ← readI32 s
  let (percent_bits, s) ← readU32 s
  let (button_count, s) ← readU32 s
  let (pressed, s) ← readPressed button_count s
  pure (({ id := id, current_floor_val := current_floor,
           destination_floor_val := decodeDest dest_raw,
           percent_full_bits := percent_bits,
           pressed_buttons := pressed } : Elevator), s)

/-- The elevator loop of `read_state`: ids are the 0-based arrival
positions (`for id in 0..elevator_count`). -/
def readElevators : Nat → Nat → List Nat → Option (List Elevator × List Nat)
  | 0, _, s => some ([], s)
  | n + 1, id, s => do
      let (e, s) ← readElevator id s
      let (es, s) ← readElevators n (id + 1) s
      pure (e :: es, s)

/-- Decode of one floor record: `level:i32, up:u8, down:u8`, a zero
byte meaning the button is not pressed. -/
def readFloor (s : List Nat) : Option (Floor × List Nat) := do
  let (level, s) ← readI32 s
  let (b1, s) ← readU8 s
  let (b2, s) ← readU8 s
  pure (({ level_val := level, up := b1 != 0, down := b2 != 0 } : Floor), s)

/-- The floor loop of `read_state`. -/
def readFloors : Nat → List Nat → Option (List Floor × List Nat)
  | 0, s => some ([], s)
  | n + 1, s => do
      let (f, s) ← readFloor s
      let (fs, s) ← readFloors n s
      pure (f :: fs, s)

/-- The frame decoder `read_state`: the two count words, then the
elevator records (ids assigned 0-based in arrival order), then the
floor records; any short read propagates as `none`. -/
def read_state (s : List Nat) : Option ((List Elevator × List Floor) × List Nat) := do
  let (elevator_count, s) ← readU32 s
  let (floor_count, s) ← readU32 s
  let (es, s) ← readElevators elevator_count 0 s
  let (fs, s) ← readFloors floor_count s
  pure ((es, fs), s)

/-- The frame encoder `write_commands`: `count:u32` (the length cast to
`u32`), then per command `elevator_id:u32, target_floor:i32`,
little-endian, in the order produced. -/
def write_commands (commands : List (Nat × Int)) : List Nat :=
  toLE4 (commands.length % 2 ^ 32) ++
    commands.flatMap fun c => toLE4 (c.1 % 2 ^ 32) ++ i32ToLE c.2

/-- Modelled from the spec: the command-list part of the command-frame
layout of section 6 (`elevator_id:u32, target_floor:i32` per command),
read back. The decode direction of the command frame has no
implementation under src/ (src/public/rust/game.rs only encodes it);
this definition follows the spec's layout words. -/
def readCommandList : Nat → List Nat → Option (List (Nat × Int) × List Nat)
  | 0, s => some ([], s)
  | n + 1, s => do
      let (eid, s) ← readU32 s
      let (tf, s) ← readI32 s
      let (cs, s) ← readCommandList n s
      pure ((eid, tf) :: cs, s)

/-- Modelled from the spec: the command-frame layout of section 6,
`command_count:u32` then the command list, read back. -/
def readCommandFrame (s : List Nat) : Option (List (Nat × Int) × List Nat) := do
  let (n, s) ← readU32 s
  readCommandList n s

/-- The driver loop `run`, with the tick callback abstracted as a
function from the decoded state to the drained command list, and fuel
bounding the number of iterations (the real loop is bounded by the
stream length, since a successful decode consumes at least the two
count words). Each iteration appends one encoded command frame to the
written output; a failed decode ends the loop with nothing written for
that tick. -/
def runLoop (tickFn : List Elevator → List Floor → List (Nat × Int)) :
    Nat → List Nat → List (List Nat)
  | 0, _ => []
  | fuel + 1, s =>
      match read_state s with
      | none => []
      | some ((es, fs), rest) => write_commands (tickFn es fs) :: runLoop tickFn fuel rest

/-- The driver entry `run` on a whole input stream. -/
def run (tickFn : List Elevator → List Floor → List (Nat × Int)) (s : List Nat) :
    List (List Nat) :=
  runLoop tickFn (s.length + 1) s

end Game

namespace Game

/-- Reading back four little-endian bytes of a 32-bit word recovers the
word and leaves the rest of the stream untouched. -/
theorem readU32_toLE4 (n : Nat) (hn : n < 2 ^ 32) (r : List Nat) :
    readU32 (toLE4 n ++ r) = some (n, r) := by
  simp only [toLE4, List.cons_append, List.nil_append, readU32, Option.some.injEq,
    Prod.mk.injEq, and_true]
  omega

/-- Reading back the little-endian bytes of an `i32` value in range
recovers the value. -/
theorem readI32_i32ToLE (v : Int) (h1 : -2 ^ 31 ≤ v) (h2 : v < 2 ^ 31) (r : List Nat) :
    readI32 (i32ToLE v ++ r) = some (v, r) := by
  have hlt : (v % 2 ^ 32).toNat < 2 ^ 32 := by omega
  simp only [i32ToLE, readI32, readU32_toLE4 _ hlt r, Option.some.injEq, Prod.mk.injEq,
    and_true, asI32]
  split <;> omega

/-- Reading back an encoded command list recovers it command by
command. -/
theorem readCommandList_roundtrip (cmds : List (Nat × Int))
    (hwf : ∀ c ∈ cmds, c.1 < 2 ^ 32 ∧ -2 ^ 31 ≤ c.2 ∧ c.2 < 2 ^ 31) (r : List Nat) :
    readCommandList cmds.length
      ((cmds.flatMap fun c => toLE4 (c.1 % 2 ^ 32) ++ i32ToLE c.2) ++ r) = some (cmds, r) := by
  induction cmds with
  | nil => simp [readCommandList]
  | cons c cs ih =>
      obtain ⟨h1, h2, h3⟩ := hwf c (by simp)
      have hmod : c.1 % 2 ^ 32 = c.1 := Nat.mod_eq_of_lt h1
      simp only [List.flatMap_cons, List.length_cons, readCommandList, List.append_assoc,
        hmod, readU32_toLE4 _ h1, Option.bind_eq_bind, Option.some_bind,
        readI32_i32ToLE c.2 h2 h3]
      have ih' := ih fun d hd => hwf d (by simp [hd])
      simp only [show (2 : Nat) ^ 32 = 4294967296 from by norm_num] at ih'
      simp [ih']

/-- C5: encoding a command list writes `command_count:u32` then each
command's `elevator_id:u32` and `target_floor:i32` in the order
produced, all little-endian with no reordering or deduplication, and
decoding those bytes by the spec's command-frame layout reproduces the
original command list exactly. The hypotheses are the machine ranges of
the Rust types (`Vec` length and `u32`/`i32` fields). -/
theorem command_frame_roundtrip (cmds : List (Nat × Int))
    (hlen : cmds.length < 2 ^ 32)
    (hwf : ∀ c ∈ cmds, c.1 < 2 ^ 32 ∧ -2 ^ 31 ≤ c.2 ∧ c.2 < 2 ^ 31) :
    readCommandFrame (write_commands cmds) = some (cmds, []) := by
  have hmod : cmds.length % 2 ^ 32 = cmds.length := Nat.mod_eq_of_lt hlen
  have hlist := readCommandList_roundtrip cmds hwf []
  rw [List.append_nil] at hlist
  simp only [write_commands, readCommandFrame, hmod, readU32_toLE4 _ hlen,
    Option.bind_eq_bind, Option.some_bind, hlist]

/-- Witness for C5 on a concrete command list. -/
theorem command_frame_roundtrip_witness :
    readCommandFrame (write_commands [(3, -5), (0, 7)]) = some ([(3, -5), (0, 7)], []) :=
  command_frame_roundtrip [(3, -5), (0, 7)] (by norm_num)
    (by intro c hc; fin_cases hc <;> norm_num)

/-- C6: when decoding a state frame fails because the stream is too
short for a declared field, the driver loop terminates at once and
writes no command frame for that tick; the tick callback is universally
quantified and never invoked on that path, so no partially decoded
frame reaches the dispatch engine. -/
theorem truncated_frame_writes_nothing
    (tickFn : List Elevator → List Floor → List (Nat × Int)) (s : List Nat)
    (h : read_state s = none) :
    (∀ fuel, runLoop tickFn fuel s = []) ∧ run tickFn s = [] := by
  have hloop : ∀ fuel, runLoop tickFn fuel s = [] := by
    intro fuel
    cases fuel with
    | zero => rfl
    | succ n => simp [runLoop, h]
  exact ⟨hloop, hloop (s.length + 1)⟩

/-- Witness for C6 at the spec's scenario: a frame declaring
`elevator_count = 1` whose stream ends before the elevator's fields. -/
theorem truncated_frame_writes_nothing_witness :
    run (fun _ _ => []) [1, 0, 0, 0, 0, 0, 0, 0] = [] :=
  (truncated_frame_writes_nothing (fun _ _ => []) [1, 0, 0, 0, 0, 0, 0, 0] (by rfl)).2

/-- C9 counterexample: in the embedded variant, the raw destination
value `-2` differs from the sentinel `-1`, yet `get_destination`
reports the destination as absent, refuting the claimed
absent-iff-equal-to-minus-one condition for that interface. -/
theorem embedded_destination_negative_two :
    ElevatorWasm.get_destination ⟨0, 0, -2, [], 0⟩ = none ∧ (-2 : Int) ≠ -1 := by
  exact ⟨by decide, by decide⟩

/-- C9 amended: each interface decides absence from the raw
`destination_floor` on its own rule: the stream decoder maps exactly
the sentinel `-1` to absent and every other `i32` value, other negative
values included, to present with that value; the embedded accessor maps
every negative raw value to absent and every nonnegative raw value `v`
to present with value `v`. -/
theorem destination_sentinel_rules :
    (∀ v : Int, decodeDest v = none ↔ v = -1) ∧
    (∀ v : Int, v ≠ -1 → decodeDest v = some v) ∧
    (∀ e : ElevatorWasm.WElevator,
      ElevatorWasm.get_destination e = none ↔ e.destination_floor < 0) ∧
    (∀ e : ElevatorWasm.WElevator, 0 ≤ e.destination_floor →
      ElevatorWasm.get_destination e = some e.destination_floor.toNat) := by
  refine ⟨fun v => ?_, fun v hv => ?_, fun e => ?_, fun e he => ?_⟩
  · unfold decodeDest; split <;> simp_all
  · unfold decodeDest; split <;> simp_all
  · unfold ElevatorWasm.get_destination; split <;> simp_all
  · unfold ElevatorWasm.get_destination; split <;> simp_all

/-- Witness for C9 as amended, at raw value `-7` (stream side) and raw
value `5` (embedded side). -/
theorem destination_sentinel_rules_witness :
    decodeDest (-7) = some (-7) ∧
    ElevatorWasm.get_destination ⟨0, 0, 5, [], 0⟩ = some 5 :=
  ⟨destination_sentinel_rules.2.1 (-7) (by decide),
   destination_sentinel_rules.2.2.2 ⟨0, 0, 5, [], 0⟩ (by decide)⟩

end Game

namespace ElevatorWasm

/-- Invariant of the Priority-1 loop: starting from candidate `bf`, the
result is the first element of `bf :: rest` attaining the minimum
distance — every element strictly before it in the list is strictly
farther, and no element of the list is nearer. -/
theorem closestPressed_spec (cur : Nat) (rest : List Nat) : ∀ bf : Nat,
    (∃ pre suf, bf :: rest = pre ++ closestPressed cur rest bf (distance cur bf) :: suf ∧
      ∀ p ∈ pre, distance cur (closestPressed cur rest bf (distance cur bf)) < distance cur p) ∧
    ∀ p ∈ bf :: rest, distance cur (closestPressed cur rest bf (distance cur bf)) ≤ distance cur p := by
  induction rest with
  | nil =>
      intro bf
      refine ⟨⟨[], [], by simp [closestPressed], by simp⟩, ?_⟩
      simp [closestPressed]
  | cons f rs ih =>
      intro bf
      by_cases hlt : distance cur f < distance cur bf
      · have hr : closestPressed cur (f :: rs) bf (distance cur bf)
            = closestPressed cur rs f (distance cur f) := by
          simp [closestPressed, hlt]
        obtain ⟨⟨pre, suf, hdec, hpre⟩, hmin⟩ := ih f
        rw [hr]
        have hrf : distance cur (closestPressed cur rs f (distance cur f)) ≤ distance cur f :=
          hmin f (by simp)
        refine ⟨⟨bf :: pre, suf, ?_, ?_⟩, ?_⟩
        · simpa using congrArg (List.cons bf) hdec
        · intro p hp
          rcases List.mem_cons.mp hp with h | h
          · subst h; omega
          · exact hpre p h
        · intro p hp
          rcases List.mem_cons.mp hp with h | h
          · subst h; omega
          · exact hmin p h
      · have hr : closestPressed cur (f :: rs) bf (distance cur bf)
            = closestPressed cur rs bf (distance cur bf) := by
          simp [closestPressed, hlt]
        obtain ⟨⟨pre, suf, hdec, hpre⟩, hmin⟩ := ih bf
        rw [hr]
        have hrb : distance cur (closestPressed cur rs bf (distance cur bf)) ≤ distance cur bf :=
          hmin bf (by simp)
        have hbf_f : distance cur bf ≤ distance cur f := by omega
        refine ⟨?_, ?_⟩
        · cases pre with
          | nil =>
              simp only [List.nil_append, List.cons.injEq] at hdec
              obtain ⟨hbf, hsuf⟩ := hdec
              refine ⟨[], f :: suf, ?_, by simp⟩
              rw [List.nil_append, ← hbf, hsuf]
          | cons q pre₁ =>
              simp only [List.cons_append, List.cons.injEq] at hdec
              obtain ⟨hq, hrs⟩ := hdec
              have hqstrict := hpre q (by simp)
              rw [← hq] at hqstrict
              refine ⟨bf :: f :: pre₁, suf, ?_, ?_⟩
              · conv_lhs => rw [hrs]
                simp
              · intro p hp
                rcases List.mem_cons.mp hp with h | h
                · rw [h]; exact hqstrict
                · rcases List.mem_cons.mp h with h' | h'
                  · rw [h']; omega
                  · exact hpre p (by simp [h'])
        · intro p hp
          rcases List.mem_cons.mp hp with h | h
          · rw [h]; exact hmin bf (by simp)
          · rcases List.mem_cons.mp h with h' | h'
            · rw [h']; omega
            · exact hmin p (by simp [h'])

/-- C1: with a non-empty pressed-floor sequence, the resolved target is
a member of the sequence sitting at the first position that attains the
minimum absolute distance to `current_floor` (every pressed floor
strictly before it is strictly farther and none anywhere is nearer),
and the choice ignores the tick counter, the `destination_floor` field
and the floor calls entirely. -/
theorem pressed_floor_choice (tick_count : Nat) (e : WElevator) (floors : List WFloor)
    (h : e.pressed_floors ≠ []) :
    (∃ pre suf,
      e.pressed_floors = pre ++ get_best_target_floor tick_count e floors :: suf ∧
      ∀ p ∈ pre,
        distance e.current_floor (get_best_target_floor tick_count e floors) <
          distance e.current_floor p) ∧
    (∀ p ∈ e.pressed_floors,
      distance e.current_floor (get_best_target_floor tick_count e floors) ≤
        distance e.current_floor p) ∧
    (∀ (tc : Nat) (d : Int) (floors' : List WFloor),
      get_best_target_floor tc { e with destination_floor := d } floors' =
        get_best_target_floor tick_count e floors) := by
  obtain ⟨p, ps, hp⟩ := List.exists_cons_of_ne_nil h
  have hunfold : get_best_target_floor tick_count e floors
      = closestPressed e.current_floor ps p (distance e.current_floor p) := by
    simp [get_best_target_floor, hp]
  obtain ⟨⟨pre, suf, hdec, hpre⟩, hmin⟩ := closestPressed_spec e.current_floor ps p
  refine ⟨⟨pre, suf, ?_, ?_⟩, ?_, ?_⟩
  · rw [hp, hunfold]; exact hdec
  · rw [hunfold]; exact hpre
  · intro q hq
    rw [hunfold]
    exact hmin q (by rw [hp] at hq; exact hq)
  · intro tc d floors'
    simp [get_best_target_floor, hp]

/-- Witness for C1 at the spec's scenario: current floor 0, pressed
floors `[5, 2]`; the target resolves to 2 and is no farther than the
pressed floor 5. -/
theorem pressed_floor_choice_witness :
    get_best_target_floor 0 ⟨0, 0, -1, [5, 2], 0⟩ [] = 2 ∧
    distance 0 (get_best_target_floor 0 ⟨0, 0, -1, [5, 2], 0⟩ []) ≤ distance 0 5 := by
  refine ⟨by decide, ?_⟩
  exact (pressed_floor_choice 0 ⟨0, 0, -1, [5, 2], 0⟩ [] (by decide)).2.1 5 (by decide)

/-- Positivity of every call score: the base is a positive rational and
both multipliers are positive. -/
theorem callScore_pos (e : WElevator) (f : WFloor) (i : Nat) : 0 < callScore e f i := by
  simp only [callScore]
  have h1 : (0 : ℚ) < 1 / ((distance e.current_floor i : ℚ) + 1) := by positivity
  split <;> split <;> positivity

/-- Every floor of the list appears in its enumeration, carrying some
scan position. -/
theorem mem_enumFloors_of_mem {g : WFloor} {floors : List WFloor} (hg : g ∈ floors) :
    ∀ n, ∃ j, (j, g) ∈ enumFloors n floors := by
  induction floors with
  | nil => cases hg
  | cons f rest ih =>
      intro n
      rcases List.mem_cons.mp hg with h | h
      · exact ⟨n, by simp [enumFloors, h]⟩
      · obtain ⟨j, hj⟩ := ih h (n + 1)
        exact ⟨j, by simp [enumFloors, hj]⟩

/-- Every member of the enumeration is a floor of the list. -/
theorem mem_of_mem_enumFloors {p : Nat × WFloor} {floors : List WFloor} :
    ∀ n, p ∈ enumFloors n floors → p.2 ∈ floors := by
  induction floors with
  | nil => intro n hp; cases hp
  | cons f rest ih =>
      intro n hp
      rcases List.mem_cons.mp hp with h | h
      · simp [h]
      · exact List.mem_cons.mpr (Or.inr (ih (n + 1) h))

/-- Invariant of the Priority-2 scan from an already-found best score:
either no scanned call floor beats it and the accumulator survives, or
the result is a call floor strictly better than the accumulator,
strictly better than every earlier-scanned call floor (so ties keep the
earliest) and at least as good as every later-scanned one. -/
theorem scanFloors_some_spec (e : WElevator) (pairs : List (Nat × WFloor)) :
    ∀ (bf : Nat) (b : ℚ),
    (scanFloors e pairs bf (some b) = (bf, some b) ∧
      ∀ p ∈ pairs, hasCall p.2 → callScore e p.2 p.1 ≤ b) ∨
    (∃ pre i f suf, pairs = pre ++ (i, f) :: suf ∧ hasCall f ∧
      scanFloors e pairs bf (some b) = (i, some (callScore e f i)) ∧
      b < callScore e f i ∧
      (∀ p ∈ pre, hasCall p.2 → callScore e p.2 p.1 < callScore e f i) ∧
      (∀ p ∈ suf, hasCall p.2 → callScore e p.2 p.1 ≤ callScore e f i)) := by
  induction pairs with
  | nil => intro bf b; left; exact ⟨rfl, by simp⟩
  | cons q rest ih =>
      intro bf b
      obtain ⟨i, f⟩ := q
      by_cases hc : hasCall f
      · by_cases hb : b < callScore e f i
        · have hstep : scanFloors e ((i, f) :: rest) bf (some b)
              = scanFloors e rest i (some (callScore e f i)) := by
            simp [scanFloors, hc, beats, hb]
          rcases ih i (callScore e f i) with ⟨hres, hall⟩ |
            ⟨pre, j, g, suf, hdec, hg, hres, hlt, hpre, hsuf⟩
          · right
            exact ⟨[], i, f, rest, rfl, hc, by rw [hstep, hres], hb, by simp, hall⟩
          · right
            refine ⟨(i, f) :: pre, j, g, suf, by simp [hdec], hg, by rw [hstep, hres],
              lt_trans hb hlt, ?_, hsuf⟩
            intro p hp
            rcases List.mem_cons.mp hp with h | h
            · rw [h]; intro _; exact hlt
            · exact hpre p h
        · have hstep : scanFloors e ((i, f) :: rest) bf (some b)
              = scanFloors e rest bf (some b) := by
            simp [scanFloors, hc, beats, hb]
          rcases ih bf b with ⟨hres, hall⟩ |
            ⟨pre, j, g, suf, hdec, hg, hres, hlt, hpre, hsuf⟩
          · left
            refine ⟨by rw [hstep, hres], ?_⟩
            intro p hp
            rcases List.mem_cons.mp hp with h | h
            · rw [h]; intro _; exact le_of_not_lt hb
            · exact hall p h
          · right
            refine ⟨(i, f) :: pre, j, g, suf, by simp [hdec], hg, by rw [hstep, hres],
              hlt, ?_, hsuf⟩
            intro p hp
            rcases List.mem_cons.mp hp with h | h
            · rw [h]; intro _; exact lt_of_le_of_lt (le_of_not_lt hb) hlt
            · exact hpre p h
      · have hstep : scanFloors e ((i, f) :: rest) bf (some b)
            = scanFloors e rest bf (some b) := by
          simp [scanFloors, hc]
        rcases ih bf b with ⟨hres, hall⟩ |
          ⟨pre, j, g, suf, hdec, hg, hres, hlt, hpre, hsuf⟩
        · left
          refine ⟨by rw [hstep, hres], ?_⟩
          intro p hp
          rcases List.mem_cons.mp hp with h | h
          · rw [h]; intro hcc; exact absurd hcc (by simpa using hc)
          · exact hall p h
        · right
          refine ⟨(i, f) :: pre, j, g, suf, by simp [hdec], hg, by rw [hstep, hres],
            hlt, ?_, hsuf⟩
          intro p hp
          rcases List.mem_cons.mp hp with h | h
          · rw [h]; intro hcc; exact absurd hcc (by simpa using hc)
          · exact hpre p h

/-- Invariant of the Priority-2 scan from negative infinity: either no
scanned floor has an active call and the accumulator survives with no
score found, or the result is the call floor with the strictly greatest
score, ties kept by the earliest scan position. -/
theorem scanFloors_none_spec (e : WElevator) (pairs : List (Nat × WFloor)) :
    ∀ bf : Nat,
    (scanFloors e pairs bf none = (bf, none) ∧ ∀ p ∈ pairs, ¬ hasCall p.2) ∨
    (∃ pre i f suf, pairs = pre ++ (i, f) :: suf ∧ hasCall f ∧
      scanFloors e pairs bf none = (i, some (callScore e f i)) ∧
      (∀ p ∈ pre, hasCall p.2 → callScore e p.2 p.1 < callScore e f i) ∧
      (∀ p ∈ suf, hasCall p.2 → callScore e p.2 p.1 ≤ callScore e f i)) := by
  induction pairs with
  | nil => intro bf; left; exact ⟨rfl, by simp⟩
  | cons q rest ih =>
      intro bf
      obtain ⟨i, f⟩ := q
      by_cases hc : hasCall f
      · have hstep : scanFloors e ((i, f) :: rest) bf none
            = scanFloors e rest i (some (callScore e f i)) := by
          simp [scanFloors, hc, beats]
        rcases scanFloors_some_spec e rest i (callScore e f i) with ⟨hres, hall⟩ |
          ⟨pre, j, g, suf, hdec, hg, hres, hlt, hpre, hsuf⟩
        · right
          exact ⟨[], i, f, rest, rfl, hc, by rw [hstep, hres], by simp, hall⟩
        · right
          refine ⟨(i, f) :: pre, j, g, suf, by simp [hdec], hg, by rw [hstep, hres], ?_, hsuf⟩
          intro p hp
          rcases List.mem_cons.mp hp with h | h
          · rw [h]; intro _; exact hlt
          · exact hpre p h
      · have hstep : scanFloors e ((i, f) :: rest) bf none
            = scanFloors e rest bf none := by
          simp [scanFloors, hc]
        rcases ih bf with ⟨hres, hall⟩ |
          ⟨pre, j, g, suf, hdec, hg, hres, hpre, hsuf⟩
        · left
          refine ⟨by rw [hstep, hres], ?_⟩
          intro p hp
          rcases List.mem_cons.mp hp with h | h
          · rw [h]; simpa using hc
          · exact hall p h
        · right
          refine ⟨(i, f) :: pre, j, g, suf, by simp [hdec], hg, by rw [hstep, hres], ?_, hsuf⟩
          intro p hp
          rcases List.mem_cons.mp hp with h | h
          · rw [h]; intro hcc; exact absurd hcc (by simpa using hc)
          · exact hpre p h

/-- C2 counterexample: at the spec's scenario (elevator at floor 0,
load 0, no pressed floors, floors with levels 0, 3 with an up call, 7
with an up call) the engine resolves target 1 — the scan position of
the level-3 floor — not the level value 3: the scoring loop measures
distance to the scan position `floor_idx` and returns that position,
never reading `floor.level`. A second input (current floor 2, floors
with levels 2 and 9, both with up calls) also separates the distance
term: scoring by level distance would keep scan position 0 (level 2,
distance 0), but the code scores by position distance and picks
position 1. -/
theorem call_target_is_index_counterexample :
    (get_best_target_floor 0 ⟨0, 0, -1, [], 0⟩ [⟨0, 0, 0⟩, ⟨3, 1, 0⟩, ⟨7, 1, 0⟩] = 1 ∧
      (1 : Nat) ≠ 3) ∧
    (get_best_target_floor 0 ⟨0, 2, -1, [], 0⟩ [⟨2, 1, 0⟩, ⟨9, 1, 0⟩] = 1 ∧
      (1 : Nat) ≠ 2) := by
  refine ⟨⟨?_, by decide⟩, ⟨?_, by decide⟩⟩ <;>
    norm_num [get_best_target_floor, scanFloors, enumFloors, callScore, beats, hasCall,
      dirBonus, get_destination, distance]

/-- C2 amended (the scoring loop uses the scan position `floor_idx`,
not `floor.level`, both in the distance term and as the returned
target): for every elevator with empty `pressed_floors` facing at least
one floor with an active call, the resolved target is the scan position
of the call floor with the greatest score — whose base term is
`1 / (|current_floor − floor_idx| + 1)` before the direction and load
multipliers — every earlier-scanned call floor scoring strictly less
and every call floor scoring at most that; in the spec's scenario the
elevator is targeted to scan position 1 (the floor whose level is 3),
not to floor 3. -/
theorem call_scan_choice (tick_count : Nat) (e : WElevator) (floors : List WFloor)
    (hp : e.pressed_floors = [])
    (hc : ∃ f ∈ floors, hasCall f) :
    (∃ pre i f suf,
      enumFloors 0 floors = pre ++ (i, f) :: suf ∧ hasCall f ∧
      get_best_target_floor tick_count e floors = i ∧
      (∀ p ∈ pre, hasCall p.2 → callScore e p.2 p.1 < callScore e f i) ∧
      (∀ p ∈ enumFloors 0 floors, hasCall p.2 → callScore e p.2 p.1 ≤ callScore e f i)) ∧
    get_best_target_floor 0 ⟨0, 0, -1, [], 0⟩ [⟨0, 0, 0⟩, ⟨3, 1, 0⟩, ⟨7, 1, 0⟩] = 1 := by
  constructor
  · obtain ⟨f0, hf0, hc0⟩ := hc
    obtain ⟨j0, hj0⟩ := mem_enumFloors_of_mem hf0 0
    rcases scanFloors_none_spec e (enumFloors 0 floors) e.current_floor with ⟨hres, hnone⟩ |
      ⟨pre, i, f, suf, hdec, hg, hres, hpre, hsuf⟩
    · exact absurd hc0 (by simpa using hnone (j0, f0) hj0)
    · refine ⟨pre, i, f, suf, hdec, hg, ?_, hpre, ?_⟩
      · simp [get_best_target_floor, hp, hres]
      · intro p hmem hcp
        rw [hdec] at hmem
        rcases List.mem_append.mp hmem with h | h
        · exact le_of_lt (hpre p h hcp)
        · rcases List.mem_cons.mp h with h' | h'
          · rw [h']
          · exact hsuf p h' hcp
  · norm_num [get_best_target_floor, scanFloors, enumFloors, callScore, beats, hasCall,
      dirBonus, get_destination, distance]

/-- Witness for C2 as amended, at the spec's scenario input. -/
theorem call_scan_choice_witness :
    get_best_target_floor 0 ⟨0, 0, -1, [], 0⟩ [⟨0, 0, 0⟩, ⟨3, 1, 0⟩, ⟨7, 1, 0⟩] = 1 :=
  (call_scan_choice 0 ⟨0, 0, -1, [], 0⟩ [⟨0, 0, 0⟩, ⟨3, 1, 0⟩, ⟨7, 1, 0⟩] rfl
    ⟨⟨3, 1, 0⟩, by simp, by decide⟩).2

/-- With no active call among the scanned floors, the Priority-2 scan
leaves the accumulator untouched and finds no score. -/
theorem scanFloors_no_call (e : WElevator) (pairs : List (Nat × WFloor))
    (h : ∀ p ∈ pairs, ¬ hasCall p.2) : ∀ bf, scanFloors e pairs bf none = (bf, none) := by
  induction pairs with
  | nil => intro bf; rfl
  | cons q rest ih =>
      intro bf
      obtain ⟨i, f⟩ := q
      have hf : ¬ hasCall f := by simpa using h (i, f) (by simp)
      have hstep : scanFloors e ((i, f) :: rest) bf none
          = scanFloors e rest bf none := by simp [scanFloors, hf]
      rw [hstep]
      exact ih (fun p hp => h p (by simp [hp])) bf

/-- C4 counterexample: with nine call-free floors and an empty elevator
of id 0, phase 66 already falls into the top-third branch (the code's
middle band is `33 ≤ phase < 2*100/3 = 66`, not `< 67` as claimed), and
phase 67 targets floor `min(2*9/3, 9-1) = 6`, not 5 as the claim's
instance states. -/
theorem idle_boundary_counterexample :
    (get_best_target_floor 66 ⟨0, 8, -1, [], 0⟩ (List.replicate 9 ⟨0, 0, 0⟩) = 6 ∧
      (6 : Nat) ≠ 4) ∧
    (get_best_target_floor 67 ⟨0, 8, -1, [], 0⟩ (List.replicate 9 ⟨0, 0, 0⟩) = 6 ∧
      (6 : Nat) ≠ 5) := by
  refine ⟨⟨?_, by decide⟩, ⟨?_, by decide⟩⟩ <;>
    norm_num [get_best_target_floor, scanFloors, enumFloors, hasCall, beats,
      get_strategic_position, List.replicate]

/-- C4 amended (the middle band ends at phase 66, and the top-third
value for nine floors is 6, as the claim's own general formula gives):
for every elevator with no pressed floors, facing no active call, whose
load is below 0.1, the target is `floor_count / 3` (minimum 1) when
`phase < 33`, `floor_count / 2` when `33 ≤ phase < 66`, and
`2*floor_count/3` capped at `floor_count − 1` when `phase ≥ 66`, where
`phase = (tick_counter + elevator_id * 25) mod 100`; with
`floor_count = 9` and `elevator_id = 0` the target is floor 3 at phase
0, floor 4 at phase 50, and floor 6 at phase 67. The side conditions
keep the `u32` arithmetic of the code away from wrap-around. -/
theorem idle_positioning (tick_count : Nat) (e : WElevator) (floors : List WFloor)
    (hp : e.pressed_floors = [])
    (hc : ∀ f ∈ floors, ¬ hasCall f)
    (hl : e.load < 1 / 10)
    (hw : tick_count + e.id * 25 < 2 ^ 32)
    (hn : 1 ≤ floors.length) (hn2 : floors.length < 2 ^ 32) :
    (get_best_target_floor tick_count e floors =
      if (tick_count + e.id * 25) % 100 < 33 then max (floors.length / 3) 1
      else if (tick_count + e.id * 25) % 100 < 66 then floors.length / 2
      else min (2 * floors.length / 3) (floors.length - 1)) ∧
    get_best_target_floor 0 ⟨0, 8, -1, [], 0⟩ (List.replicate 9 ⟨0, 0, 0⟩) = 3 ∧
    get_best_target_floor 50 ⟨0, 8, -1, [], 0⟩ (List.replicate 9 ⟨0, 0, 0⟩) = 4 ∧
    get_best_target_floor 67 ⟨0, 8, -1, [], 0⟩ (List.replicate 9 ⟨0, 0, 0⟩) = 6 := by
  refine ⟨?_, ?_, ?_, ?_⟩
  · have hpairs : ∀ p ∈ enumFloors 0 floors, ¬ hasCall p.2 :=
      fun p hp' => hc p.2 (mem_of_mem_enumFloors 0 hp')
    have hscan := scanFloors_no_call e (enumFloors 0 floors) hpairs e.current_floor
    have hphase : (tick_count + e.id * 25) % 2 ^ 32 = tick_count + e.id * 25 :=
      Nat.mod_eq_of_lt hw
    have hsub : (floors.length + (2 ^ 32 - 1)) % 2 ^ 32 = floors.length - 1 := by omega
    simp only [get_best_target_floor, hp, hscan, get_strategic_position, hphase, hsub]
    rw [if_pos hl]
  all_goals
    norm_num [get_best_target_floor, scanFloors, enumFloors, hasCall, beats,
      get_strategic_position, List.replicate]

/-- Witness for C4 as amended, applying it at the nine-floor scenario
at phase 0. -/
theorem idle_positioning_witness :
    get_best_target_floor 0 ⟨0, 8, -1, [], 0⟩ (List.replicate 9 ⟨0, 0, 0⟩) = 3 :=
  (idle_positioning 0 ⟨0, 8, -1, [], 0⟩ (List.replicate 9 ⟨0, 0, 0⟩) rfl
    (by decide) (by norm_num) (by norm_num) (by norm_num) (by norm_num)).2.1

/-- C7 failing input, evaluated: an empty idle elevator at floor 5
facing an empty floor set is commanded to floor 1 (`max(0/3, 1)` from
the strategic-positioning branch) — a command to a floor that does not
exist, where the spec requires that an elevator with no valid options
receive no command (and at a phase in the top-third band the same
branch computes `0 − 1` on a `u32`, which wraps — a panic in a
debug build). -/
theorem empty_floor_set_command :
    ElevatorWasm.tick 0 [⟨0, 5, -1, [], 0⟩] [] = [(0, 1)] := by
  norm_num [ElevatorWasm.tick, tickGo, get_best_target_floor, scanFloors, enumFloors,
    get_strategic_position]

/-- Relation between a call score and the corresponding no-destination
score: the direction bonus is the only difference, a factor of two. -/
theorem callScore_bonus_factor (e : WElevator) (f : WFloor) (i : Nat) :
    callScore e f i =
      (if dirBonus e f then 2 else 1) * callScore { e with destination_floor := -1 } f i := by
  have hnd : dirBonus { e with destination_floor := -1 } f = false := rfl
  have hload2 : ({ e with destination_floor := -1 } : WElevator).load = e.load := rfl
  have hcur2 : ({ e with destination_floor := -1 } : WElevator).current_floor
      = e.current_floor := rfl
  by_cases hdb : dirBonus e f <;>
    simp only [callScore, hnd, hdb, hload2, hcur2, Bool.false_eq_true, if_false, if_true,
      ite_true, ite_false] <;>
    split_ifs <;> ring

/-- C3 counterexample: with the destination present and equal to the
current floor (`destination_floor = current_floor = 2`), a down-call
floor at scan position 1 scores 1 — double the 1/2 it scores without a
destination — because `moving_up = dest > current_floor` is false at
equality and the down-branch of the bonus then fires. This refutes the
claim that neither call direction receives the bonus when the
destination equals the current floor. -/
theorem direction_bonus_at_equal_counterexample :
    get_destination ⟨0, 2, 2, [], 0⟩ = some 2 ∧
    callScore ⟨0, 2, 2, [], 0⟩ ⟨0, 0, 1⟩ 1 = 1 ∧
    callScore ⟨0, 2, -1, [], 0⟩ ⟨0, 0, 1⟩ 1 = 1 / 2 := by
  refine ⟨by decide, ?_, ?_⟩ <;>
    norm_num [callScore, dirBonus, get_destination, distance]

/-- C3 amended (a down-call receives the bonus whenever the destination
does not lie strictly above the current floor, the equal case
included): with a destination `dest` present, a call floor's score is
exactly double its no-destination score when `dest > current_floor` and
the floor has an up call, or when `dest ≤ current_floor` and the floor
has a down call, and equals the no-destination score otherwise; with
the destination absent it always equals the no-destination score; and
scores are positive, so the doubled and undoubled cases never
coincide. -/
theorem direction_bonus_rule :
    (∀ (e : WElevator) (f : WFloor) (i : Nat) (dest : Nat),
      get_destination e = some dest →
      (((dest > e.current_floor ∧ f.up_button ≠ 0) ∨
        (dest ≤ e.current_floor ∧ f.down_button ≠ 0)) →
        callScore e f i = 2 * callScore { e with destination_floor := -1 } f i) ∧
      (¬ ((dest > e.current_floor ∧ f.up_button ≠ 0) ∨
        (dest ≤ e.current_floor ∧ f.down_button ≠ 0)) →
        callScore e f i = callScore { e with destination_floor := -1 } f i)) ∧
    (∀ (e : WElevator) (f : WFloor) (i : Nat),
      get_destination e = none →
      callScore e f i = callScore { e with destination_floor := -1 } f i) ∧
    (∀ (e : WElevator) (f : WFloor) (i : Nat), 0 < callScore e f i) := by
  have hchar : ∀ (e : WElevator) (f : WFloor) (dest : Nat),
      get_destination e = some dest →
      (dirBonus e f = true ↔
        ((dest > e.current_floor ∧ f.up_button ≠ 0) ∨
          (dest ≤ e.current_floor ∧ f.down_button ≠ 0))) := by
    intro e f dest hdest
    simp only [dirBonus, hdest, Bool.or_eq_true, Bool.and_eq_true, decide_eq_true_eq,
      bne_iff_ne, ne_eq, Bool.not_eq_true', decide_eq_false_iff_not, not_lt]
  refine ⟨fun e f i dest hdest => ⟨fun hcond => ?_, fun hcond => ?_⟩,
    fun e f i hdest => ?_, callScore_pos⟩
  · have hdb : dirBonus e f = true := (hchar e f dest hdest).mpr hcond
    rw [callScore_bonus_factor e f i, hdb, if_pos rfl]
  · have hdb : dirBonus e f = false := by
      rcases Bool.eq_false_or_eq_true (dirBonus e f) with h | h
      · exact absurd ((hchar e f dest hdest).mp h) hcond
      · exact h
    rw [callScore_bonus_factor e f i, hdb]
    simp
  · have hdb : dirBonus e f = false := by simp [dirBonus, hdest]
    rw [callScore_bonus_factor e f i, hdb]
    simp

/-- Witness for C3 as amended: the equal-destination down-call input is
scored at exactly twice its no-destination score. -/
theorem direction_bonus_rule_witness :
    callScore ⟨0, 2, 2, [], 0⟩ ⟨0, 0, 1⟩ 1 =
      2 * callScore ⟨0, 2, -1, [], 0⟩ ⟨0, 0, 1⟩ 1 :=
  (direction_bonus_rule.1 ⟨0, 2, 2, [], 0⟩ ⟨0, 0, 1⟩ 1 2 (by decide)).1
    (Or.inr ⟨by norm_num, by decide⟩)

/-- Scaling every call score by a positive constant scales the scan's
best score by the same constant and leaves the chosen floor
unchanged. -/
theorem scanFloors_scale (e1 e2 : WElevator) (c : ℚ) (hc : 0 < c)
    (hs : ∀ f i, callScore e1 f i = c * callScore e2 f i)
    (pairs : List (Nat × WFloor)) :
    ∀ (bf : Nat) (b : Option ℚ),
      scanFloors e1 pairs bf (b.map fun x => c * x) =
        ((scanFloors e2 pairs bf b).1, (scanFloors e2 pairs bf b).2.map fun x => c * x) := by
  induction pairs with
  | nil => intro bf b; rfl
  | cons q rest ih =>
      intro bf b
      obtain ⟨i, f⟩ := q
      by_cases hcall : hasCall f
      · have hbeats : beats (c * callScore e2 f i) (b.map fun x => c * x)
            = beats (callScore e2 f i) b := by
          cases b with
          | none => rfl
          | some x =>
              simp only [Option.map_some', beats, decide_eq_decide]
              exact mul_lt_mul_left hc
        by_cases hb : beats (callScore e2 f i) b
        · have h1 : scanFloors e1 ((i, f) :: rest) bf (b.map fun x => c * x)
              = scanFloors e1 rest i (some (c * callScore e2 f i)) := by
            simp [scanFloors, hcall, hs f i, hbeats, hb]
          have h2 : scanFloors e2 ((i, f) :: rest) bf b
              = scanFloors e2 rest i (some (callScore e2 f i)) := by
            simp [scanFloors, hcall, hb]
          rw [h1, h2]
          simpa using ih i (some (callScore e2 f i))
        · have h1 : scanFloors e1 ((i, f) :: rest) bf (b.map fun x => c * x)
              = scanFloors e1 rest bf (b.map fun x => c * x) := by
            simp [scanFloors, hcall, hs f i, hbeats, hb]
          have h2 : scanFloors e2 ((i, f) :: rest) bf b
              = scanFloors e2 rest bf b := by
            simp [scanFloors, hcall, hb]
          rw [h1, h2]
          exact ih bf b
      · have h1 : scanFloors e1 ((i, f) :: rest) bf (b.map fun x => c * x)
            = scanFloors e1 rest bf (b.map fun x => c * x) := by
          simp [scanFloors, hcall]
        have h2 : scanFloors e2 ((i, f) :: rest) bf b
            = scanFloors e2 rest bf b := by
          simp [scanFloors, hcall]
        rw [h1, h2]
        exact ih bf b

/-- C8: for two elevators identical except for their load, scanning the
same floors, with one overloaded (`load > 0.8`) and the other not, the
chosen call score of the overloaded one never exceeds the chosen call
score of the other: every call's score carries the extra 0.3 factor
under overload and is otherwise computed identically. -/
theorem overload_never_increases_score (e : WElevator) (l1 l2 : ℚ)
    (floors : List WFloor) (s1 s2 : ℚ)
    (h1 : l1 > 4 / 5) (h2 : l2 ≤ 4 / 5)
    (hs1 : (scanFloors { e with load := l1 } (enumFloors 0 floors)
      e.current_floor none).2 = some s1)
    (hs2 : (scanFloors { e with load := l2 } (enumFloors 0 floors)
      e.current_floor none).2 = some s2) :
    s1 ≤ s2 := by
  have hdb : ∀ f : WFloor, dirBonus { e with load := l1 } f = dirBonus { e with load := l2 } f :=
    fun f => rfl
  have hscale : ∀ (f : WFloor) (i : Nat), callScore { e with load := l1 } f i
      = (3 / 10) * callScore { e with load := l2 } f i := by
    intro f i
    simp only [callScore, hdb f]
    rw [if_pos h1, if_neg (not_lt.mpr h2)]
    ring
  have hmap := scanFloors_scale { e with load := l1 } { e with load := l2 } (3 / 10)
    (by norm_num) hscale (enumFloors 0 floors) e.current_floor none
  simp only [Option.map_none'] at hmap
  rw [hmap] at hs1
  rw [hs2] at hs1
  simp only [Option.map_some', Option.some.injEq] at hs1
  have hpos : 0 < s2 := by
    rcases scanFloors_none_spec { e with load := l2 } (enumFloors 0 floors)
      e.current_floor with ⟨hres, _⟩ | ⟨pre, i, f, suf, hdec, hg, hres, hpre, hsuf⟩
    · rw [hres] at hs2; cases hs2
    · rw [hres] at hs2
      simp only [Option.some.injEq] at hs2
      rw [← hs2]
      exact callScore_pos _ _ _
  linarith [hs1]

/-- Witness for C8 on a single up-call floor directly under the
elevators: the overloaded elevator's chosen score is 0.3, the light
one's is 1. -/
theorem overload_never_increases_score_witness : (3 / 10 : ℚ) ≤ 1 :=
  overload_never_increases_score ⟨0, 0, -1, [], 0⟩ (9 / 10) 0 [⟨0, 1, 0⟩] (3 / 10) 1
    (by norm_num) (by norm_num)
    (by norm_num [scanFloors, enumFloors, callScore, dirBonus, get_destination, hasCall,
      beats, distance])
    (by norm_num [scanFloors, enumFloors, callScore, dirBonus, get_destination, hasCall,
      beats, distance])

/-- The Priority-2 scan never reads the `id` field: rewriting it leaves
the scan unchanged. -/
theorem scanFloors_id_irrel (e : WElevator) (n : Nat) (pairs : List (Nat × WFloor)) :
    ∀ (bf : Nat) (b : Option ℚ),
      scanFloors { e with id := n } pairs bf b = scanFloors e pairs bf b := by
  have hcs : ∀ (f : WFloor) (i : Nat),
      callScore { e with id := n } f i = callScore e f i := fun _ _ => rfl
  induction pairs with
  | nil => intro bf b; rfl
  | cons q rest ih =>
      intro bf b
      obtain ⟨i, f⟩ := q
      by_cases hcall : hasCall f
      · by_cases hb : beats (callScore e f i) b
        · have h1 : scanFloors { e with id := n } ((i, f) :: rest) bf b
              = scanFloors { e with id := n } rest i (some (callScore e f i)) := by
            simp [scanFloors, hcall, hcs, hb]
          have h2 : scanFloors e ((i, f) :: rest) bf b
              = scanFloors e rest i (some (callScore e f i)) := by
            simp [scanFloors, hcall, hb]
          rw [h1, h2, ih]
        · have h1 : scanFloors { e with id := n } ((i, f) :: rest) bf b
              = scanFloors { e with id := n } rest bf b := by
            simp [scanFloors, hcall, hcs, hb]
          have h2 : scanFloors e ((i, f) :: rest) bf b
              = scanFloors e rest bf b := by
            simp [scanFloors, hcall, hb]
          rw [h1, h2, ih]
      · have h1 : scanFloors { e with id := n } ((i, f) :: rest) bf b
            = scanFloors { e with id := n } rest bf b := by
          simp [scanFloors, hcall]
        have h2 : scanFloors e ((i, f) :: rest) bf b
            = scanFloors e rest bf b := by
          simp [scanFloors, hcall]
        rw [h1, h2, ih]

/-- Every command the embedded tick loop emits pairs an elevator's scan
position (offset by the loop's start index) with that elevator's
resolved target, and it is emitted only when the target differs from
the elevator's current floor. -/
theorem tickGo_mem (tick_count : Nat) (floors : List WFloor) :
    ∀ (es : List WElevator) (i0 : Nat) (p : Nat × Nat),
      p ∈ tickGo tick_count floors i0 es →
      ∃ j : Fin es.length, p.1 = i0 + (j : Nat) ∧
        p.2 = get_best_target_floor tick_count (es.get j) floors ∧
        p.2 ≠ (es.get j).current_floor := by
  intro es
  induction es with
  | nil => intro i0 p hp; simp [tickGo] at hp
  | cons e rest ih =>
      intro i0 p hp
      simp only [tickGo, List.mem_append] at hp
      rcases hp with hp | hp
      · by_cases ht : get_best_target_floor tick_count e floors ≠ e.current_floor
        · rw [if_pos ht] at hp
          simp only [List.mem_singleton] at hp
          refine ⟨⟨0, by simp⟩, ?_, ?_, ?_⟩
          · simp [hp]
          · simp [hp]
          · simp [hp]; exact ht
        · rw [if_neg ht] at hp
          cases hp
      · obtain ⟨j, h1, h2, h3⟩ := ih (i0 + 1) p hp
        refine ⟨⟨(j : Nat) + 1, by simp⟩, ?_, ?_, ?_⟩
        · simp only [List.get_cons_succ]  -- no-op for the index goal
          omega
        · simpa using h2
        · simpa using h3

/-- C10: the embedded `tick` passes the host callback the elevator's
0-based position in the input span, never the `id` field of its record:
every emitted command pairs a position with that position's elevator
and its target, and the `id` field cannot influence the target at all
outside the idle-positioning branch (any pressed button or any active
call makes the target independent of `id`). -/
theorem callback_uses_position :
    (∀ (tc : Nat) (es : List WElevator) (fs : List WFloor) (p : Nat × Nat),
      p ∈ ElevatorWasm.tick tc es fs →
      ∃ j : Fin es.length, p.1 = (j : Nat) ∧
        p.2 = get_best_target_floor tc (es.get j) fs ∧
        p.2 ≠ (es.get j).current_floor) ∧
    (∀ (tc : Nat) (e : WElevator) (n : Nat) (fs : List WFloor),
      (e.pressed_floors ≠ [] ∨ ∃ f ∈ fs, hasCall f) →
      get_best_target_floor tc { e with id := n } fs = get_best_target_floor tc e fs) := by
  constructor
  · intro tc es fs p hp
    obtain ⟨j, h1, h2, h3⟩ := tickGo_mem tc fs es 0 p hp
    exact ⟨j, by simpa using h1, h2, h3⟩
  · intro tc e n fs hor
    cases hpf : e.pressed_floors with
    | cons q qs => simp [get_best_target_floor, hpf]
    | nil =>
        have hcall : ∃ f ∈ fs, hasCall f := by
          rcases hor with h | h
          · exact absurd hpf h
          · exact h
        obtain ⟨f0, hf0, hc0⟩ := hcall
        obtain ⟨j0, hj0⟩ := mem_enumFloors_of_mem hf0 0
        have hid : scanFloors { e with id := n } (enumFloors 0 fs) e.current_floor none
            = scanFloors e (enumFloors 0 fs) e.current_floor none :=
          scanFloors_id_irrel e n (enumFloors 0 fs) e.current_floor none
        rw [hpf] at hid
        rcases scanFloors_none_spec e (enumFloors 0 fs) e.current_floor with ⟨hres, hnone⟩ |
          ⟨pre, i, f, suf, hdec, hg, hres, hpre, hsuf⟩
        · exact absurd hc0 (by simpa using hnone (j0, f0) hj0)
        · simp [get_best_target_floor, hpf, hid, hres]

/-- Witness for C10: a single elevator whose record carries `id = 7`
(and, for the second part, a rewrite of the id to 3) at position 0 with
a pressed floor 2; the emitted command carries position 0, and the
target ignores the id. -/
theorem callback_uses_position_witness :
    (∃ j : Fin ([(⟨7, 0, -1, [2], 0⟩ : WElevator)].length),
      (((0 : Nat), (2 : Nat)) : Nat × Nat).1 = (j : Nat) ∧
      (((0 : Nat), (2 : Nat)) : Nat × Nat).2 =
        get_best_target_floor 0 ([(⟨7, 0, -1, [2], 0⟩ : WElevator)].get j) [] ∧
      (((0 : Nat), (2 : Nat)) : Nat × Nat).2 ≠
        ([(⟨7, 0, -1, [2], 0⟩ : WElevator)].get j).current_floor) ∧
    get_best_target_floor 0 ⟨3, 0, -1, [2], 0⟩ [] =
      get_best_target_floor 0 ⟨7, 0, -1, [2], 0⟩ [] := by
  constructor
  · exact callback_uses_position.1 0 [⟨7, 0, -1, [2], 0⟩] [] (0, 2) (by decide)
  · exact callback_uses_position.2 0 ⟨7, 0, -1, [2], 0⟩ 3 [] (Or.inl (by decide))

end ElevatorWasm

